import Mathlib

set_option maxRecDepth 8000

/-!
Shallow embedding of the parsing and statistics core of
`tor_data_explorer.py` (classes `FileAnalyzer` and `DataVisualizer`).
Strings are modelled as `List Char`.  Python's IEEE-754 `float`
arithmetic in `parse_file_size` is modelled exactly: the parsed decimal
is kept as a numerator together with a power-of-ten denominator, and
`int(...)` of the non-negative product becomes floor division; for
every value appearing in this development the double-precision result
and the exact result agree.  A Python exception (`ValueError` from
`float(...)`) is modelled as `none` in an `Option` result.
-/

/-- Characters treated as whitespace by Python's `str.strip`, `str.lstrip`
and by `\s` in a `str` regular expression (the Unicode whitespace set). -/
def pySpaceChars : List Char :=
  [' ', '\t', '\n', '\r', '\x0b', '\x0c', '\x1c', '\x1d', '\x1e', '\x1f',
   '\x85', '\xa0', ' ', ' ', ' ', ' ', ' ',
   ' ', ' ', ' ', ' ', ' ', ' ', ' ',
   ' ', ' ', ' ', ' ', '　']

def isPySpace (c : Char) : Bool := pySpaceChars.contains c

/-- Line boundaries recognized by Python's `str.splitlines`. -/
def isLineBreakChar (c : Char) : Bool :=
  c == '\n' || c == '\r' || c == '\x0b' || c == '\x0c' || c == '\x1c' ||
  c == '\x1d' || c == '\x1e' || c == '\x85' || c == ' ' || c == ' '

/-- Helper for `splitlines`: `acc` holds the current line reversed. -/
def splitlinesAux : List Char → List Char → List (List Char)
  | acc, [] => if acc = [] then [] else [acc.reverse]
  | acc, '\r' :: '\n' :: rest => acc.reverse :: splitlinesAux [] rest
  | acc, c :: rest =>
    if isLineBreakChar c then acc.reverse :: splitlinesAux [] rest
    else splitlinesAux (c :: acc) rest

/-- Python `content.splitlines()`: split at line boundaries, `\r\n`
counting as a single boundary, with no trailing empty line. -/
def splitlines (s : List Char) : List (List Char) := splitlinesAux [] s

/-- Python `s.strip()`: remove leading and trailing whitespace. -/
def pyStrip (s : List Char) : List Char :=
  ((s.dropWhile isPySpace).reverse.dropWhile isPySpace).reverse

/-- Source line 86: `indent_level = (len(line) - len(line.lstrip())) // 2`,
the number of leading whitespace characters divided by 2. -/
def indentLevel (line : List Char) : Nat :=
  (line.takeWhile isPySpace).length / 2

/-- Characters matched by `[\d.]` in the size regex. -/
def isDigitDotChar (c : Char) : Bool := c.isDigit || c == '.'

/-- The unit letters of the size regex, `[KMGT]`. -/
def unitChars : List Char := ['K', 'M', 'G', 'T']

/-- Matching of the regex `^([\d.]+)([KMGT])?B?$` from source line 64
against a (stripped) token: group 1 is the maximal digits-and-dots
prefix, after which only a unit letter and/or a literal `B` may remain.
Returns the text of group 1 and the optional unit letter. -/
def parseSizeToken (s : List Char) : Option (List Char × Option Char) :=
  let v := s.takeWhile isDigitDotChar
  let rest := s.drop v.length
  if v = [] then none
  else
    match rest with
    | [] => some (v, none)
    | [u] =>
      if unitChars.contains u then some (v, some u)
      else if u = 'B' then some (v, none) else none
    | [u, b] =>
      if unitChars.contains u ∧ b = 'B' then some (v, some u) else none
    | _ => none

/-- Numeric value of a string of decimal digits. -/
def digitsVal (ds : List Char) : Nat :=
  ds.foldl (fun a c => a * 10 + (c.toNat - 48)) 0

/-- Python `float(value)` on a string of digits and dots (the only shape
group 1 of the regex can produce): defined exactly when the string
contains at most one dot and at least one digit, otherwise `float`
raises `ValueError`, modelled as `none`.  The value `num / den` is kept
exact as the pair `(num, den)` with `den` the power of ten given by the
number of fractional digits; CPython rounds the value to an IEEE-754
double instead. -/
def floatOfToken (v : List Char) : Option (Nat × Nat) :=
  if v.count '.' = 0 then some (digitsVal v, 1)
  else if v.count '.' = 1 ∧ 2 ≤ v.length then
    some (digitsVal (v.filter (fun c => c ≠ '.')),
      10 ^ ((v.dropWhile (fun c => c ≠ '.')).tail).length)
  else none

/-- Source lines 54-59: the `SIZE_MULTIPLIERS` dictionary, accessed with
`.get(unit, 1)`. -/
def SIZE_MULTIPLIERS (u : Char) : Nat :=
  if u = 'K' then 1024
  else if u = 'M' then 1024 ^ 2
  else if u = 'G' then 1024 ^ 3
  else if u = 'T' then 1024 ^ 4
  else 1

/-- Multiplier applied by the `if unit:` branch of `parse_file_size`. -/
def unitMultiplier : Option Char → Nat
  | none => 1
  | some c => SIZE_MULTIPLIERS c

/-- Source lines 61-74, `FileAnalyzer.parse_file_size`: strip the token,
match `^([\d.]+)([KMGT])?B?$` (no match gives 0), convert group 1 with
`float` (which can raise, modelled as `none`), multiply by the unit
multiplier and truncate with `int` — on the exact value `num / den` the
truncation of the non-negative product is the floor division
`num * multiplier / den`. -/
def parse_file_size (size_str : List Char) : Option Int :=
  match parseSizeToken (pyStrip size_str) with
  | none => some 0
  | some (v, u) =>
    match floatOfToken v with
    | none => none
    | some (num, den) =>
      match u with
      | none => some (Int.ofNat (num / den))
      | some c => some (Int.ofNat (num * SIZE_MULTIPLIERS c / den))

/-- Continuation `(.+)$` after greedy `\s+`: drop the longest whitespace
prefix that still leaves at least one character. -/
def tailAfterSpaces : List Char → List Char
  | [] => []
  | [c] => [c]
  | c :: rest => if isPySpace c then tailAfterSpaces rest else c :: rest

/-- Matching of `\s+(.+)$` against the text after the closing bracket:
succeeds when the text starts with a whitespace character and at least
one character follows some whitespace run; the captured name is the text
after the greedy whitespace run. -/
def tailName : List Char → Option (List Char)
  | [] => none
  | c :: rest =>
    if isPySpace c ∧ rest ≠ [] then some (tailAfterSpaces rest) else none

/-- Lazy search for the closing bracket of `(.+?)\]`: `acc` is the
reversed content read so far; a `]` closes the group only when the
content is nonempty and the continuation `\s+(.+)$` matches, otherwise
it is absorbed into the content (regex backtracking). -/
def splitAtClose : List Char → List Char → Option (List Char × List Char)
  | _, [] => none
  | acc, c :: rest =>
    if c = ']' ∧ acc ≠ [] then
      match tailName rest with
      | some nm => some (acc.reverse, nm)
      | none => splitAtClose (c :: acc) rest
    else splitAtClose (c :: acc) rest

/-- Matching of the regex `.*\[(.+?)\]\s+(.+)$` from source line 91: the
greedy `.*` makes the engine try the rightmost `[` first; returns the
captured size token and name. -/
def scanBrackets : List Char → Option (List Char × List Char)
  | [] => none
  | c :: rest =>
    match scanBrackets rest with
    | some r => some r
    | none => if c = '[' then splitAtClose [] rest else none

/-- Extends the first path segment with a character (helper for
`segments`). -/
def segCons (c : Char) (l : List (List Char)) : List (List Char) :=
  match l with
  | [] => [[c]]
  | s :: ss => (c :: s) :: ss

/-- Split a string at every `/` (keeping empty segments). -/
def segments : List Char → List (List Char)
  | [] => [[]]
  | c :: rest =>
    if c = '/' then [] :: segments rest else segCons c (segments rest)

/-- `pathlib.PurePosixPath(name).name`: the last `/`-separated component
after dropping empty and `.` components, or the empty string. -/
def pathName (name : List Char) : List Char :=
  (((segments name).filter (fun s => s ≠ [] ∧ s ≠ ['.'])).getLast?).getD []

/-- Index of the last `.` in a string (helper, `acc`-passing). -/
def lastDotPosAux : List Char → Nat → Option Nat → Option Nat
  | [], _, acc => acc
  | c :: rest, i, acc =>
    lastDotPosAux rest (i + 1) (if c = '.' then some i else acc)

/-- Python `name.rfind('.')` restricted to found positions. -/
def lastDotPos (s : List Char) : Option Nat := lastDotPosAux s 0 none

/-- The `suffix` computation of `pathlib` on the final component `base`:
`base[i:]` for `i = base.rfind('.')` when `0 < i < len(base) - 1`,
otherwise the empty string. -/
def suffixOfBase (base : List Char) : List Char :=
  match lastDotPos base with
  | none => []
  | some i => if 0 < i ∧ i + 1 < base.length then base.drop i else []

/-- Source line 102: `Path(name).suffix.lower()`. -/
def pySuffixLower (name : List Char) : List Char :=
  (suffixOfBase (pathName name)).map Char.toLower

/-- Source lines 44-49: the `FileEntry` dataclass. -/
structure FileEntry where
  path : List Char
  size : Int
  extension : List Char
deriving DecidableEq

/-- Source line 101: `'/'.join(current_path)`. -/
def joinPath (segs : List (List Char)) : List Char :=
  (segs.intersperse ['/']).flatten

/-- One iteration of the loop of `process_file_listing` (source lines
82-104) on state `current_path`: skip blank lines; pop the stack down to
the indent level; skip lines not matching the bracket regex; otherwise
parse the size (a `ValueError` propagates, modelled as `none`), push the
name and emit an entry. -/
def processLine (current_path : List (List Char)) (line : List Char) :
    Option (List (List Char) × Option FileEntry) :=
  if pyStrip line = [] then some (current_path, none)
  else
    let stack := current_path.take (indentLevel line)
    match scanBrackets (pyStrip line) with
    | none => some (stack, none)
    | some (size_str, name) =>
      match parse_file_size size_str with
      | none => none
      | some size =>
        let stack2 := stack.take (indentLevel line) ++ [name]
        some (stack2, some ⟨joinPath stack2, size, pySuffixLower name⟩)

/-- The loop of `process_file_listing` over the remaining lines. -/
def processLines : List (List Char) → List (List Char) → Option (List FileEntry)
  | _, [] => some []
  | stack, l :: ls =>
    match processLine stack l with
    | none => none
    | some (stack2, none) => processLines stack2 ls
    | some (stack2, some e) => Option.map (fun r => e :: r) (processLines stack2 ls)

/-- Source lines 76-106, `FileAnalyzer.process_file_listing`. -/
def process_file_listing (content : List Char) : Option (List FileEntry) :=
  processLines [] (splitlines content)

/-- The three size-distribution buckets of `analyze_patterns`. -/
inductive Bucket where
  | small
  | medium
  | large
deriving DecidableEq

/-- Source lines 154-160: the size classification of one entry. -/
def sizeBucket (size : Int) : Bucket :=
  if size < 1024 ^ 2 then Bucket.small
  else if size < 100 * 1024 ^ 2 then Bucket.medium
  else Bucket.large

/-- The analysis dictionary of `analyze_patterns`; the three fixed keys
of `size_distribution` are flattened into the fields `small`, `medium`
and `large`. -/
structure AnalysisResult where
  total_files : Nat
  total_size : Int
  extension_stats : List (List Char × Nat)
  small : Nat
  medium : Nat
  large : Nat
deriving DecidableEq

/-- Source lines 149-152: increment the counter of `ext` in the
insertion-ordered dictionary `extension_stats`, creating it at 0 first
when unseen. -/
def bumpExt (stats : List (List Char × Nat)) (ext : List Char) :
    List (List Char × Nat) :=
  match stats with
  | [] => [(ext, 1)]
  | (k, v) :: rest =>
    if k = ext then (k, v + 1) :: rest else (k, v) :: bumpExt rest ext

/-- Sum of the counters of an extension dictionary. -/
def sumValues (l : List (List Char × Nat)) : Nat := (l.map Prod.snd).sum

/-- The `if entry.extension:` branch of the loop (source lines 149-152). -/
def extAdd (a : AnalysisResult) (ext : List Char) : AnalysisResult :=
  if ext = [] then a
  else { a with extension_stats := bumpExt a.extension_stats ext }

/-- The size-distribution branch of the loop (source lines 154-160). -/
def bucketAdd (a : AnalysisResult) (b : Bucket) : AnalysisResult :=
  match b with
  | Bucket.small => { a with small := a.small + 1 }
  | Bucket.medium => { a with medium := a.medium + 1 }
  | Bucket.large => { a with large := a.large + 1 }

/-- One iteration of the loop of `analyze_patterns` over one entry. -/
def stepEntry (a : AnalysisResult) (e : FileEntry) : AnalysisResult :=
  bucketAdd (extAdd a e.extension) (sizeBucket e.size)

/-- Source lines 133-162, `DataVisualizer.analyze_patterns`. -/
def analyze_patterns (entries : List FileEntry) : AnalysisResult :=
  List.foldl stepEntry
    ⟨entries.length, (entries.map FileEntry.size).sum, [], 0, 0, 0⟩ entries

/-- A line whose trimmed content matches the bracket regex of source
line 91. -/
def lineMatch (l : List Char) : Bool := (scanBrackets (pyStrip l)).isSome

/-- The extension the parser computes for a matching line. -/
def lineExtension (l : List Char) : List Char :=
  match scanBrackets (pyStrip l) with
  | some (_, nm) => pySuffixLower nm
  | none => []

/-- The byte size the parser computes for a matching line. -/
def lineSizeValue (l : List Char) : Int :=
  match scanBrackets (pyStrip l) with
  | some (v, _) => (parse_file_size v).getD 0
  | none => 0

/-- The four-line example listing of the specification (2-space indents). -/
def exampleListing : List Char :=
  ("[ 10M] root\n  [ 1M] a.txt\n  [ 2M] sub\n    [500K] b.log".toList)

/-- A listing containing a non-matching line `xyz` at indent 0. -/
def listingWithNoise : List Char :=
  ("[1K] a\n  [1K] b\nxyz\n      [1K] c".toList)

/-- The same listing with the non-matching line removed. -/
def listingWithoutNoise : List Char :=
  ("[1K] a\n  [1K] b\n      [1K] c".toList)

/-- C1: the claim states that `parse_file_size` returns an integer for
every token without raising, and returns 0 for tokens outside the
recognized format.  The code violates it: the group `[\d.]+` of the
regex also matches tokens such as `.` and `1.2.3`, which are not valid
float literals, so `float(value)` raises `ValueError` (modelled as
`none`); the conjuncts about `parseSizeToken` show the regex did match,
so the failure is the `float` conversion, not the silent 0 branch. -/
theorem C1_parse_size_raises :
    parse_file_size (".".toList) = none
    ∧ parse_file_size ("1.2.3".toList) = none
    ∧ parseSizeToken (pyStrip (".".toList)) = some ((".".toList), none)
    ∧ parseSizeToken (pyStrip ("1.2.3".toList)) = some (("1.2.3".toList), none) :=
  ⟨by decide, by decide, by decide, by decide⟩

/-- C2: the claim states that `process_file_listing` never raises and
that unparseable size tokens yield a zero-byte entry.  The code violates
it: on the line `[.] x` the bracket regex matches with size token `.`,
and `parse_file_size` raises `ValueError` from `float('.')`, so the
whole parse fails (modelled as `none`). -/
theorem C2_listing_raises :
    process_file_listing ("[.] x".toList) = none := by decide

/-- C3, counterexample: on the listing `[1K] a / [1K] b / xyz / [1K] c`
(the third line non-matching at indent 0, the fourth at indent 6), the
non-matching line `xyz` pops the path stack before the match is
attempted, so the last entry has path `c`; with the line removed the
same entry has path `a/b/c`.  This refutes the claim that a
non-matching line leaves the stack unchanged. -/
theorem C3_counterexample :
    Option.map (List.map FileEntry.path) (process_file_listing listingWithNoise)
      = some [("a".toList), ("a/b".toList), ("c".toList)]
    ∧ Option.map (List.map FileEntry.path) (process_file_listing listingWithoutNoise)
      = some [("a".toList), ("a/b".toList), ("a/b/c".toList)] :=
  ⟨by decide, by decide⟩

/-- C3, amended: for every non-empty line whose trimmed content does not
match the bracket pattern, no entry is emitted, but the path stack is
first truncated to at most the line's indent depth (source lines 87-88
run before the regex match of line 91), so such a line can change the
paths of subsequent entries. -/
theorem C3_amended_nonmatching_line (stack : List (List Char)) (line : List Char)
    (hne : pyStrip line ≠ []) (hnm : scanBrackets (pyStrip line) = none) :
    processLine stack line = some (stack.take (indentLevel line), none) := by
  unfold processLine
  rw [if_neg hne]
  simp only [hnm]

theorem C3_amended_nonmatching_line_witness :
    pyStrip ("xyz".toList) ≠ []
    ∧ scanBrackets (pyStrip ("xyz".toList)) = none
    ∧ processLine [("a".toList), ("b".toList)] ("xyz".toList)
      = some (([("a".toList), ("b".toList)]).take (indentLevel ("xyz".toList)), none) :=
  ⟨by decide, by decide,
   C3_amended_nonmatching_line [("a".toList), ("b".toList)] ("xyz".toList)
     (by decide) (by decide)⟩

/-- C5: `sizeBucket` classifies every size into exactly one bucket with
half-open ranges — below 2^20 is small, from 2^20 up to but excluding
100·2^20 is medium, from 100·2^20 on is large — and `analyze_patterns`
counts an entry of exactly 1048576 bytes as medium, 1048575 as small,
and 104857600 as large. -/
theorem C5_size_buckets :
    (∀ s : Int, s < 2 ^ 20 → sizeBucket s = Bucket.small)
    ∧ (∀ s : Int, 2 ^ 20 ≤ s → s < 100 * 2 ^ 20 → sizeBucket s = Bucket.medium)
    ∧ (∀ s : Int, 100 * 2 ^ 20 ≤ s → sizeBucket s = Bucket.large)
    ∧ (analyze_patterns [⟨("f".toList), 1048576, []⟩]).medium = 1
    ∧ (analyze_patterns [⟨("f".toList), 1048576, []⟩]).small = 0
    ∧ (analyze_patterns [⟨("f".toList), 1048576, []⟩]).large = 0
    ∧ (analyze_patterns [⟨("f".toList), 1048575, []⟩]).small = 1
    ∧ (analyze_patterns [⟨("f".toList), 104857600, []⟩]).large = 1 := by
  refine ⟨?_, ?_, ?_, by decide, by decide, by decide, by decide, by decide⟩
  · intro s h
    unfold sizeBucket
    rw [if_pos (by norm_num at h ⊢; omega)]
  · intro s h1 h2
    unfold sizeBucket
    rw [if_neg (by norm_num at h1 ⊢; omega), if_pos (by norm_num at h2 ⊢; omega)]
  · intro s h
    unfold sizeBucket
    rw [if_neg (by norm_num at h ⊢; omega), if_neg (by norm_num at h ⊢; omega)]

theorem C5_size_buckets_witness :
    ((0 : Int) < 2 ^ 20 ∧ sizeBucket 0 = Bucket.small)
    ∧ ((2 ^ 20 : Int) ≤ 1048576 ∧ (1048576 : Int) < 100 * 2 ^ 20
        ∧ sizeBucket 1048576 = Bucket.medium)
    ∧ ((100 * 2 ^ 20 : Int) ≤ 104857600 ∧ sizeBucket 104857600 = Bucket.large) :=
  ⟨⟨by decide, C5_size_buckets.1 0 (by decide)⟩,
   ⟨by decide, by decide, C5_size_buckets.2.1 1048576 (by decide) (by decide)⟩,
   ⟨by decide, C5_size_buckets.2.2.1 104857600 (by decide)⟩⟩

/-- C6: `parse_file_size` returns 4404019 for `4.2M`, 512 for `512`,
1073741824 for `1G`, 0 for `garbage`, 512 for `512B`; the value 5017
for `4.9K` (4.9·1024 = 5017.6) shows truncation rather than rounding;
and in general a matched token with numeric value `num / den` and unit
`u` yields the truncated product `num * unitMultiplier u / den` (floor
division, the multipliers being 1024, 1024^2, 1024^3, 1024^4 for
K, M, G, T). -/
theorem C6_parse_size_values :
    parse_file_size ("4.2M".toList) = some 4404019
    ∧ parse_file_size ("512".toList) = some 512
    ∧ parse_file_size ("1G".toList) = some 1073741824
    ∧ parse_file_size ("garbage".toList) = some 0
    ∧ parse_file_size ("512B".toList) = some 512
    ∧ parse_file_size ("4.9K".toList) = some 5017
    ∧ ∀ (s v : List Char) (u : Option Char) (num den : Nat),
        parseSizeToken (pyStrip s) = some (v, u) →
        floatOfToken v = some (num, den) →
        parse_file_size s = some (Int.ofNat (num * unitMultiplier u / den)) := by
  refine ⟨by decide, by decide, by decide, by decide, by decide, by decide, ?_⟩
  intro s v u num den h1 h2
  cases u with
  | none => simp only [parse_file_size, h1, h2, unitMultiplier, Nat.mul_one]
  | some c => simp only [parse_file_size, h1, h2, unitMultiplier]

theorem C6_parse_size_values_witness :
    parseSizeToken (pyStrip ("4.2M".toList)) = some (("4.2".toList), some 'M')
    ∧ floatOfToken ("4.2".toList) = some (42, 10)
    ∧ parse_file_size ("4.2M".toList)
      = some (Int.ofNat (42 * unitMultiplier (some 'M') / 10)) :=
  ⟨by decide, by decide,
   C6_parse_size_values.2.2.2.2.2.2 ("4.2M".toList) ("4.2".toList) (some 'M') 42 10
     (by decide) (by decide)⟩

/-- C8: on the four-line example listing (root at indent 0, a.txt and
sub at indent 2, b.log at indent 4, 2-space indents), the parser emits
exactly the four entries with paths `root`, `root/a.txt`, `root/sub`,
`root/sub/b.log` and extensions empty, `.txt`, empty, `.log`, in that
order. -/
theorem C8_example_listing :
    Option.map (List.map FileEntry.path) (process_file_listing exampleListing)
      = some [("root".toList), ("root/a.txt".toList), ("root/sub".toList),
              ("root/sub/b.log".toList)]
    ∧ Option.map (List.map FileEntry.extension) (process_file_listing exampleListing)
      = some [[], (".txt".toList), [], (".log".toList)] :=
  ⟨by decide, by decide⟩

/-- C9: the empty input text yields an empty entry sequence, and
`analyze_patterns` of the empty sequence is the all-zero result with an
empty extension dictionary. -/
theorem C9_empty_inputs :
    process_file_listing ("".toList) = some []
    ∧ analyze_patterns [] = ⟨0, 0, [], 0, 0, 0⟩ :=
  ⟨by decide, by decide⟩

theorem sumValues_bumpExt (stats : List (List Char × Nat)) (ext : List Char) :
    sumValues (bumpExt stats ext) = sumValues stats + 1 := by
  induction stats with
  | nil => rfl
  | cons hd tl ih =>
    obtain ⟨k, v⟩ := hd
    by_cases h : k = ext
    · simp only [bumpExt, if_pos h, sumValues, List.map_cons, List.sum_cons]
      omega
    · simp only [bumpExt, if_neg h, sumValues, List.map_cons, List.sum_cons] at ih ⊢
      omega

theorem extAdd_total_files (a : AnalysisResult) (x : List Char) :
    (extAdd a x).total_files = a.total_files := by
  unfold extAdd; split <;> rfl

theorem extAdd_small (a : AnalysisResult) (x : List Char) :
    (extAdd a x).small = a.small := by
  unfold extAdd; split <;> rfl

theorem extAdd_medium (a : AnalysisResult) (x : List Char) :
    (extAdd a x).medium = a.medium := by
  unfold extAdd; split <;> rfl

theorem extAdd_large (a : AnalysisResult) (x : List Char) :
    (extAdd a x).large = a.large := by
  unfold extAdd; split <;> rfl

theorem extAdd_sumValues (a : AnalysisResult) (x : List Char) :
    sumValues (extAdd a x).extension_stats
      = sumValues a.extension_stats + (if x = [] then 0 else 1) := by
  by_cases h : x = []
  · simp [extAdd, h]
  · simp [extAdd, h, sumValues_bumpExt]

theorem bucketAdd_total_files (a : AnalysisResult) (b : Bucket) :
    (bucketAdd a b).total_files = a.total_files := by
  cases b <;> rfl

theorem bucketAdd_ext_stats (a : AnalysisResult) (b : Bucket) :
    (bucketAdd a b).extension_stats = a.extension_stats := by
  cases b <;> rfl

theorem bucketAdd_buckets (a : AnalysisResult) (b : Bucket) :
    (bucketAdd a b).small + (bucketAdd a b).medium + (bucketAdd a b).large
      = a.small + a.medium + a.large + 1 := by
  cases b <;> simp [bucketAdd] <;> omega

theorem foldl_stepEntry_total_files (es : List FileEntry) :
    ∀ a : AnalysisResult, (List.foldl stepEntry a es).total_files = a.total_files := by
  induction es with
  | nil => intro a; rfl
  | cons e tl ih =>
    intro a
    simp only [List.foldl_cons]
    rw [ih]
    unfold stepEntry
    rw [bucketAdd_total_files, extAdd_total_files]

theorem foldl_stepEntry_buckets (es : List FileEntry) :
    ∀ a : AnalysisResult,
      (List.foldl stepEntry a es).small + (List.foldl stepEntry a es).medium
          + (List.foldl stepEntry a es).large
        = a.small + a.medium + a.large + es.length := by
  induction es with
  | nil => intro a; simp
  | cons e tl ih =>
    intro a
    simp only [List.foldl_cons, List.length_cons]
    rw [ih]
    unfold stepEntry
    rw [bucketAdd_buckets, extAdd_small, extAdd_medium, extAdd_large]
    omega

theorem foldl_stepEntry_sumValues (es : List FileEntry) :
    ∀ a : AnalysisResult,
      sumValues (List.foldl stepEntry a es).extension_stats
        = sumValues a.extension_stats
          + (es.filter (fun e => e.extension ≠ [])).length := by
  induction es with
  | nil => intro a; simp
  | cons e tl ih =>
    intro a
    simp only [List.foldl_cons, List.filter_cons]
    rw [ih]
    unfold stepEntry
    rw [bucketAdd_ext_stats, extAdd_sumValues]
    by_cases h : e.extension = []
    · simp [h]
    · simp [h]
      omega

/-- C4: for every entry sequence, the three size-distribution buckets of
`analyze_patterns` sum to `total_files`, and the counters of
`extension_stats` sum to the number of entries with a non-empty
extension. -/
theorem C4_aggregate_invariants (entries : List FileEntry) :
    (analyze_patterns entries).small + (analyze_patterns entries).medium
        + (analyze_patterns entries).large
      = (analyze_patterns entries).total_files
    ∧ sumValues (analyze_patterns entries).extension_stats
      = (entries.filter (fun e => e.extension ≠ [])).length := by
  unfold analyze_patterns
  constructor
  · rw [foldl_stepEntry_buckets, foldl_stepEntry_total_files]
    simp
  · rw [foldl_stepEntry_sumValues]
    simp [sumValues]

theorem processLines_spec (ls : List (List Char)) :
    ∀ (stack : List (List Char)) (res : List FileEntry),
      processLines stack ls = some res →
      res.length = (ls.filter lineMatch).length
      ∧ res.map FileEntry.extension = (ls.filter lineMatch).map lineExtension
      ∧ res.map FileEntry.size = (ls.filter lineMatch).map lineSizeValue := by
  induction ls with
  | nil =>
    intro stack res h
    simp only [processLines, Option.some.injEq] at h
    subst h
    simp
  | cons l tl ih =>
    intro stack res h
    by_cases hs : pyStrip l = []
    · have hlm : lineMatch l = false := by
        simp [lineMatch, hs, scanBrackets]
      simp only [processLines, processLine, hs, if_pos] at h
      simp only [List.filter_cons, hlm, Bool.false_eq_true, if_false]
      exact ih stack res h
    · cases hm : scanBrackets (pyStrip l) with
      | none =>
        have hlm : lineMatch l = false := by simp [lineMatch, hm]
        simp only [processLines, processLine, hm] at h
        rw [if_neg hs] at h
        simp only [List.filter_cons, hlm, Bool.false_eq_true, if_false]
        exact ih _ res h
      | some p =>
        obtain ⟨v, nm⟩ := p
        have hlm : lineMatch l = true := by simp [lineMatch, hm]
        cases hp : parse_file_size v with
        | none =>
          simp only [processLines, processLine, hm, hp] at h
          rw [if_neg hs] at h
          simp at h
        | some sz =>
          simp only [processLines, processLine, hm, hp] at h
          rw [if_neg hs] at h
          simp only [Option.map_eq_some'] at h
          obtain ⟨r, hr, hb⟩ := h
          subst hb
          obtain ⟨ih1, ih2, ih3⟩ := ih _ r hr
          simp only [List.filter_cons, hlm, if_true, List.length_cons,
            List.map_cons]
          simp [lineExtension, lineSizeValue, hm, hp, ih1, ih2, ih3]

/-- C7: for every input text on which `process_file_listing` returns a
list (no `ValueError` from a matched size token), the number of emitted
entries equals the number of lines whose trimmed content matches the
bracket pattern, and the entries correspond to the matching lines in
input order, shown through the per-line extension and size
projections. -/
theorem C7_count_and_order (content : List Char) (res : List FileEntry)
    (h : process_file_listing content = some res) :
    res.length = ((splitlines content).filter lineMatch).length
    ∧ res.map FileEntry.extension
      = ((splitlines content).filter lineMatch).map lineExtension
    ∧ res.map FileEntry.size
      = ((splitlines content).filter lineMatch).map lineSizeValue :=
  processLines_spec (splitlines content) [] res h

theorem C7_count_and_order_witness :
    ([⟨("a".toList), 1024, []⟩] : List FileEntry).length
      = ((splitlines ("[1K] a\nxx".toList)).filter lineMatch).length :=
  (C7_count_and_order ("[1K] a\nxx".toList) [⟨("a".toList), 1024, []⟩] (by decide)).1

theorem lastDotPosAux_no_dot (s : List Char) :
    s.count '.' = 0 → ∀ (j : Nat) (acc : Option Nat), lastDotPosAux s j acc = acc := by
  induction s with
  | nil => intro _ j acc; rfl
  | cons c rest ih =>
    intro h j acc
    rw [List.count_cons] at h
    by_cases hc : c = '.'
    · exfalso
      rw [if_pos (by simp [hc])] at h
      omega
    · rw [if_neg (by simp [hc])] at h
      simp only [lastDotPosAux, if_neg hc]
      exact ih (by omega) (j + 1) acc

theorem lastDotPos_no_dot (s : List Char) (h : s.count '.' = 0) :
    lastDotPos s = none :=
  lastDotPosAux_no_dot s h 0 none

theorem lastDotPos_head_dot (rest : List Char) (h : rest.count '.' = 0) :
    lastDotPos ('.' :: rest) = some 0 := by
  show lastDotPosAux ('.' :: rest) 0 none = some 0
  simp only [lastDotPosAux, if_pos rfl]
  exact lastDotPosAux_no_dot rest h 1 (some 0)

theorem lastDotPosAux_elim (s : List Char) :
    ∀ (j : Nat) (acc : Option Nat),
      lastDotPosAux s j acc
        = Option.elim (lastDotPos s) acc (fun k => some (j + k)) := by
  induction s with
  | nil => intro j acc; rfl
  | cons c rest ih =>
    intro j acc
    show lastDotPosAux rest (j + 1) (if c = '.' then some j else acc)
      = Option.elim (lastDotPosAux rest (0 + 1) (if c = '.' then some 0 else none))
          acc (fun k => some (j + k))
    rw [ih (j + 1), ih (0 + 1)]
    cases hk : lastDotPos rest with
    | none => by_cases hc : c = '.' <;> simp [hc]
    | some k => simp [Nat.add_assoc]

theorem lastDotPos_cons_of_ne (c : Char) (s : List Char) (hc : c ≠ '.') :
    lastDotPos (c :: s)
      = Option.elim (lastDotPos s) none (fun k => some (1 + k)) := by
  show lastDotPosAux s (0 + 1) (if c = '.' then some 0 else none) = _
  rw [if_neg hc]
  exact lastDotPosAux_elim s (0 + 1) none

theorem segments_ne_nil (name : List Char) : segments name ≠ [] := by
  cases name with
  | nil => simp [segments]
  | cons c rest =>
    simp only [segments]
    by_cases hc : c = '/'
    · simp [hc]
    · rw [if_neg hc]
      unfold segCons
      cases segments rest <;> simp

theorem segments_no_dot (name : List Char) :
    name.count '.' = 0 → ∀ s ∈ segments name, s.count '.' = 0 := by
  induction name with
  | nil =>
    intro _ s hs
    simp [segments] at hs
    subst hs
    rfl
  | cons c rest ih =>
    intro h s hs
    rw [List.count_cons] at h
    have hc : c ≠ '.' := by
      intro hce
      rw [if_pos (by simp [hce])] at h
      omega
    have hr : rest.count '.' = 0 := by
      rw [if_neg (by simp [hc])] at h
      omega
    by_cases hsl : c = '/'
    · rw [show segments (c :: rest) = [] :: segments rest by
        simp [segments, hsl]] at hs
      rcases List.mem_cons.mp hs with hs | hs
      · subst hs; rfl
      · exact ih hr s hs
    · rw [show segments (c :: rest) = segCons c (segments rest) by
        simp [segments, hsl]] at hs
      cases hL : segments rest with
      | nil => exact absurd hL (segments_ne_nil rest)
      | cons hd tl =>
        rw [hL] at hs
        simp only [segCons] at hs
        rcases List.mem_cons.mp hs with hs | hs
        · subst hs
          rw [List.count_cons, if_neg (by simp [hc])]
          have : hd.count '.' = 0 :=
            ih hr hd (by rw [hL]; exact List.mem_cons_self hd tl)
          omega
        · exact ih hr s (by rw [hL]; exact List.mem_cons_of_mem hd hs)

theorem segments_head_dot (name : List Char)
    (hhead : name.head? = some '.') (hcount : name.count '.' = 1) :
    ∀ s ∈ segments name, s.count '.' = 0 ∨ lastDotPos s = some 0 := by
  cases name with
  | nil => simp at hhead
  | cons c rest =>
    have hc : c = '.' := by
      simp only [List.head?_cons, Option.some.injEq] at hhead
      exact hhead
    subst hc
    have hr : rest.count '.' = 0 := by
      rw [List.count_cons, if_pos (by simp)] at hcount
      omega
    intro s hs
    rw [show segments ('.' :: rest) = segCons '.' (segments rest) by
      simp [segments]] at hs
    cases hL : segments rest with
    | nil => exact absurd hL (segments_ne_nil rest)
    | cons hd tl =>
      rw [hL] at hs
      simp only [segCons] at hs
      rcases List.mem_cons.mp hs with hs | hs
      · right
        subst hs
        exact lastDotPos_head_dot hd
          (segments_no_dot rest hr hd (by rw [hL]; exact List.mem_cons_self hd tl))
      · left
        exact segments_no_dot rest hr s
          (by rw [hL]; exact List.mem_cons_of_mem hd hs)

theorem segments_trailing_dot (name : List Char) :
    name.getLast? = some '.' → name.count '.' = 1 →
    ∀ s ∈ segments name, s.count '.' = 0
      ∨ ∃ i, lastDotPos s = some i ∧ i + 1 = s.length := by
  induction name with
  | nil => intro hlast _ s hs; simp at hlast
  | cons c rest ih =>
    intro hlast hcount s hs
    cases rest with
    | nil =>
      have hc : c = '.' := by
        simp only [List.getLast?_singleton, Option.some.injEq] at hlast
        exact hlast
      subst hc
      rw [show segments ['.'] = [['.']] by simp [segments, segCons]] at hs
      rcases List.mem_cons.mp hs with hs | hs
      · subst hs
        right
        exact ⟨0, lastDotPos_head_dot [] rfl, rfl⟩
      · simp at hs
    | cons r rs =>
      rw [List.getLast?_cons_cons] at hlast
      have hc : c ≠ '.' := by
        intro hce
        rw [List.count_cons, if_pos (by simp [hce])] at hcount
        have h0 : (r :: rs).count '.' = 0 := by omega
        have hmem : ('.' : Char) ∈ r :: rs :=
          List.mem_of_getLast?_eq_some hlast
        have := List.count_pos_iff.mpr hmem
        omega
      have hr : (r :: rs).count '.' = 1 := by
        rw [List.count_cons, if_neg (by simp [hc])] at hcount
        omega
      by_cases hsl : c = '/'
      · rw [show segments (c :: r :: rs) = [] :: segments (r :: rs) by
          simp [segments, hsl]] at hs
        rcases List.mem_cons.mp hs with hs | hs
        · subst hs; left; rfl
        · exact ih hlast hr s hs
      · rw [show segments (c :: r :: rs) = segCons c (segments (r :: rs)) by
          simp [segments, hsl]] at hs
        cases hL : segments (r :: rs) with
        | nil => exact absurd hL (segments_ne_nil (r :: rs))
        | cons hd tl =>
          rw [hL] at hs
          simp only [segCons] at hs
          rcases List.mem_cons.mp hs with hs | hs
          · subst hs
            rcases ih hlast hr hd
                (by rw [hL]; exact List.mem_cons_self hd tl) with hcase | hcase
            · left
              rw [List.count_cons, if_neg (by simp [hc])]
              omega
            · right
              obtain ⟨i, hi, hilen⟩ := hcase
              refine ⟨1 + i, ?_, ?_⟩
              · rw [lastDotPos_cons_of_ne c hd hc, hi]
                rfl
              · simp only [List.length_cons]
                omega
          · exact ih hlast hr s (by rw [hL]; exact List.mem_cons_of_mem hd hs)

theorem pySuffixLower_of_base_cases (name : List Char)
    (h : ∀ s ∈ segments name,
      s.count '.' = 0
      ∨ lastDotPos s = some 0
      ∨ ∃ i, lastDotPos s = some i ∧ i + 1 = s.length) :
    pySuffixLower name = [] := by
  unfold pySuffixLower pathName
  cases hb : ((segments name).filter (fun s => s ≠ [] ∧ s ≠ ['.'])).getLast? with
  | none => rfl
  | some b =>
    have hbmem : b ∈ segments name :=
      (List.mem_filter.mp (List.mem_of_getLast?_eq_some hb)).1
    simp only [Option.getD_some]
    rcases h b hbmem with hcase | hcase | hcase
    · unfold suffixOfBase
      rw [lastDotPos_no_dot b hcase]
      rfl
    · unfold suffixOfBase
      rw [hcase]
      simp
    · obtain ⟨i, hi, hilen⟩ := hcase
      unfold suffixOfBase
      simp only [hi]
      have hcond : ¬(0 < i ∧ i + 1 < b.length) := by omega
      rw [if_neg hcond]
      rfl

theorem pySuffixLower_head_dot (name : List Char)
    (hhead : name.head? = some '.') (hcount : name.count '.' = 1) :
    pySuffixLower name = [] :=
  pySuffixLower_of_base_cases name (fun s hs => by
    rcases segments_head_dot name hhead hcount s hs with h | h
    · exact Or.inl h
    · exact Or.inr (Or.inl h))

theorem pySuffixLower_trailing_dot (name : List Char)
    (hlast : name.getLast? = some '.') (hcount : name.count '.' = 1) :
    pySuffixLower name = [] :=
  pySuffixLower_of_base_cases name (fun s hs => by
    rcases segments_trailing_dot name hlast hcount s hs with h | h
    · exact Or.inl h
    · exact Or.inr (Or.inr h))

/-- C10: for every matched listing line, if the extracted name begins
with a dot and contains no other dot (such as `.gitignore`), or if its
only dot is a trailing one (such as `file.`), then the emitted entry's
extension is the empty string, because `pathlib` treats a leading dot as
a hidden-file marker and ignores a trailing dot. -/
theorem C10_dot_names_have_no_extension :
    (∀ (stack : List (List Char)) (line v nm : List Char)
        (st2 : List (List Char)) (e : FileEntry),
        scanBrackets (pyStrip line) = some (v, nm) →
        nm.head? = some '.' → nm.count '.' = 1 →
        processLine stack line = some (st2, some e) → e.extension = [])
    ∧ (∀ (stack : List (List Char)) (line v nm : List Char)
        (st2 : List (List Char)) (e : FileEntry),
        scanBrackets (pyStrip line) = some (v, nm) →
        nm.getLast? = some '.' → nm.count '.' = 1 →
        processLine stack line = some (st2, some e) → e.extension = []) := by
  constructor
  · intro stack line v nm st2 e hscan hhd hcnt hPL
    have hs : pyStrip line ≠ [] := by
      intro h0
      rw [h0] at hscan
      simp [scanBrackets] at hscan
    simp only [processLine, hscan] at hPL
    rw [if_neg hs] at hPL
    cases hp : parse_file_size v with
    | none => rw [hp] at hPL; simp at hPL
    | some sz =>
      rw [hp] at hPL
      simp only [Option.some.injEq, Prod.mk.injEq] at hPL
      obtain ⟨-, he⟩ := hPL
      rw [← he]
      exact pySuffixLower_head_dot nm hhd hcnt
  · intro stack line v nm st2 e hscan hlast hcnt hPL
    have hs : pyStrip line ≠ [] := by
      intro h0
      rw [h0] at hscan
      simp [scanBrackets] at hscan
    simp only [processLine, hscan] at hPL
    rw [if_neg hs] at hPL
    cases hp : parse_file_size v with
    | none => rw [hp] at hPL; simp at hPL
    | some sz =>
      rw [hp] at hPL
      simp only [Option.some.injEq, Prod.mk.injEq] at hPL
      obtain ⟨-, he⟩ := hPL
      rw [← he]
      exact pySuffixLower_trailing_dot nm hlast hcnt

theorem C10_dot_names_have_no_extension_witness :
    ((⟨(".gitignore".toList), 1024, []⟩ : FileEntry).extension = [])
    ∧ ((⟨("file.".toList), 1024, []⟩ : FileEntry).extension = []) :=
  ⟨C10_dot_names_have_no_extension.1 [] ("[1K] .gitignore".toList) ("1K".toList)
     (".gitignore".toList) [(".gitignore".toList)] ⟨(".gitignore".toList), 1024, []⟩
     (by decide) (by decide) (by decide) (by decide),
   C10_dot_names_have_no_extension.2 [] ("[1K] file.".toList) ("1K".toList)
     ("file.".toList) [("file.".toList)] ⟨("file.".toList), 1024, []⟩
     (by decide) (by decide) (by decide) (by decide)⟩
